import Mathlib

/-!
Verification development for the fig project core (`fig/project.py`):
the dependency-ordering function `sort_service_dicts`, the `Project`
collection (construction from spec dicts, name lookup, subset filtering)
and its bulk lifecycle operations.

Spec dicts are Python dictionaries with a required `name` key and an
optional `links` key (a list of names).  We model them as a structure
whose `links` field is an `Option (List String)`: `none` stands for an
absent `links` key, `some ls` for a present one.  Python exceptions
(`DependencyError`, `NoSuchService`, and the `StopIteration` escaping
from the bare `next(...)` call) are modelled with `Except` over a single
error type, mirroring how the exceptions propagate to the caller.
-/

/-- A service specification dict: a required `name` entry and an optional
`links` entry (the Python dicts carry further keys, which no modelled
operation reads or writes; dict equality, used by the membership test in
the sort, is modelled as structural equality on the modelled fields). -/
structure ServiceSpec where
  name : String
  links : Option (List String)
deriving DecidableEq, Repr

/-- Python `s.get('links', [])`: the list under the `links` key, or `[]`
when the key is absent. -/
def getLinks (s : ServiceSpec) : List String :=
  s.links.getD []

/-- Python truthiness of `s.get('links')`: true exactly when the `links`
key is present with a non-empty list. -/
def hasLinks (s : ServiceSpec) : Bool :=
  !(getLinks s).isEmpty

/-- The failure modes of the modelled code: `DependencyError msg` and
`NoSuchService name` are the two exception classes defined in
`fig/project.py`; `stopIteration` models the `StopIteration` raised by the
bare `next(s for s in services if l == s['name'])` when no spec matches. -/
inductive FigError where
  | dependencyError (msg : String)
  | noSuchService (name : String)
  | stopIteration
deriving DecidableEq, Repr

/-- The inner `for l in n['links']` loop of `sort_service_dicts`: look the
linked spec up among all input specs (first match by name; `StopIteration`
if none), raise `DependencyError` on a mutual link back to `n`, and
front-insert a link target that itself has no links and is not already in
the sorted accumulator. -/
def processLinks (services : List ServiceSpec) (n : ServiceSpec) :
    List String → List ServiceSpec → Except FigError (List ServiceSpec)
  | [], sorted => .ok sorted
  | l :: rest, sorted =>
    match services.find? (fun s => s.name == l) with
    | none => .error .stopIteration
    | some linked_service =>
      if n.name ∈ getLinks linked_service then
        .error (.dependencyError
          ("Circular import between " ++ n.name ++ " and " ++ linked_service.name))
      else if getLinks linked_service = [] ∧ linked_service ∉ sorted then
        processLinks services n rest (linked_service :: sorted)
      else
        processLinks services n rest sorted

/-- The `while dependent_services` loop of `sort_service_dicts`.  Python
pops from the end of `dependent_services` and nothing is ever pushed, so
the loop is recursion over the reversed dependent list: raise
`DependencyError` on a self-link, append the popped spec to the sorted
accumulator, then process its links. -/
def sortLoop (services : List ServiceSpec) :
    List ServiceSpec → List ServiceSpec → Except FigError (List ServiceSpec)
  | [], sorted => .ok sorted
  | n :: stack, sorted =>
    if n.name ∈ getLinks n then
      .error (.dependencyError ("A service can not link to itself: " ++ n.name))
    else
      match processLinks services n (getLinks n) (sorted ++ [n]) with
      | .error e => .error e
      | .ok sorted2 => sortLoop services stack sorted2

/-- The local `dependent_services` of `sort_service_dicts`: the specs that
link to another service. -/
def dependent_services (services : List ServiceSpec) : List ServiceSpec :=
  services.filter (fun s => hasLinks s)

/-- The local `flatten_links` of `sort_service_dicts`: every name occurring
as a link target of some dependent spec. -/
def flatten_links (services : List ServiceSpec) : List String :=
  ((dependent_services services).map getLinks).flatten

/-- The local `non_dependent_sevices` of `sort_service_dicts` (sic): specs
that neither link to others nor are linked to. -/
def non_dependent_sevices (services : List ServiceSpec) : List ServiceSpec :=
  services.filter
    (fun s => !((flatten_links services).contains s.name) && !(hasLinks s))

/-- Model of `sort_service_dicts(services)`: partition off the specs that
neither link nor are linked to, run the dependent specs through the
stack-based loop, and return the non-dependent bucket followed by the
sorted accumulator. -/
def sort_service_dicts (services : List ServiceSpec) :
    Except FigError (List ServiceSpec) :=
  (sortLoop services (dependent_services services).reverse []).map
    (fun sorted_services => non_dependent_sevices services ++ sorted_services)

/-- A constructed service handle.  `fig/service.py` is outside the modelled
core; per the spec contract a handle is constructed with the shared client,
the project name, the resolved link handles, and the remaining spec fields
(of which the model carries `name`).  `links` holds handles of
already-constructed sibling services, hence the nested inductive. -/
inductive Service (C : Type) where
  | mk (client : C) (project : String) (links : List (Service C)) (name : String)

/-- The `name` attribute of a service handle. -/
def Service.name {C : Type} : Service C → String
  | .mk _ _ _ n => n

/-- The resolved `links` of a service handle. -/
def Service.links {C : Type} : Service C → List (Service C)
  | .mk _ _ l _ => l

/-- A collection of services: `Project.__init__(self, name, services, client)`. -/
structure Project (C : Type) where
  name : String
  services : List (Service C)
  client : C

/-- Model of `Project.get_service(name)`: linear scan of `self.services`
returning the first handle with the requested name, else `NoSuchService`. -/
def Project.get_service {C : Type} (p : Project C) (name : String) :
    Except FigError (Service C) :=
  match p.services.find? (fun s => s.name == name) with
  | some s => .ok s
  | none => .error (.noSuchService name)

/-- A sequence of `get_service` calls, one per name in order, stopping at
the first failure.  This models both the link-resolution loop inside
`from_dicts` and the list comprehension inside `get_services`. -/
def getServiceEach {C : Type} (p : Project C) :
    List String → Except FigError (List (Service C))
  | [] => .ok []
  | nm :: rest => do
    let s ← p.get_service nm
    let ls ← getServiceEach p rest
    pure (s :: ls)

/-- Python `del service_dict['links']`: the dict afterwards has no `links`
key (a no-op on a dict whose `links` key was already absent, matching the
guard `if 'links' in service_dict`). -/
def delLinks (d : ServiceSpec) : ServiceSpec :=
  { d with links := none }

/-- The construction loop of `Project.from_dicts`: walk the sorted specs,
resolve each spec's link names against the services built so far, delete
the `links` key from the spec dict, and append the new handle.  The code
mutates the caller's dicts in place; the state-passing translation returns,
next to the project, the post-state of every processed dict in processing
order. -/
def fromDictsLoop {C : Type} (client : C) (pname : String) :
    List ServiceSpec → Project C → List ServiceSpec →
    Except FigError (Project C × List ServiceSpec)
  | [], project, post => .ok (project, post)
  | d :: rest, project, post =>
    match getServiceEach project (getLinks d) with
    | .error e => .error e
    | .ok links =>
      let d2 := delLinks d
      let svc : Service C := .mk client pname links d2.name
      fromDictsLoop client pname rest
        { project with services := project.services ++ [svc] } (post ++ [d2])

/-- Model of `Project.from_dicts(name, service_dicts, client)`: sort the
spec dicts, then build the project over the sorted order.  The second
component of a successful result is the post-state of the processed spec
dicts (the code mutates them in place, deleting their `links` keys). -/
def Project.from_dicts {C : Type} (name : String) (service_dicts : List ServiceSpec)
    (client : C) : Except FigError (Project C × List ServiceSpec) :=
  match sort_service_dicts service_dicts with
  | .error e => .error e
  | .ok sorted => fromDictsLoop client name sorted ⟨name, [], client⟩ []

/-- Model of `Project.from_config(name, config, client)`: the config is an
ordered mapping from service name to service dict; the code writes each
entry's key into the dict under `name` (mutating the entry) and hands the
resulting list to `from_dicts`. -/
def Project.from_config {C : Type} (name : String)
    (config : List (String × ServiceSpec)) (client : C) :
    Except FigError (Project C × List ServiceSpec) :=
  Project.from_dicts name
    (config.map (fun entry => { entry.2 with name := entry.1 })) client

/-- Modelled from the spec: `fig/service.py` is outside the modelled core;
per the §6 contract, the membership test `s in unsorted` inside
`get_services` compares service handles by identity/name, which we model as
comparison by name. -/
def serviceMem {C : Type} (unsorted : List (Service C)) (s : Service C) : Bool :=
  unsorted.any (fun t => t.name == s.name)

/-- Model of `Project.get_services(service_names)`: all services when the
argument is absent or empty; otherwise resolve every requested name (first
`NoSuchService` aborts the call) and keep the members of `self.services`
that were requested, in collection order. -/
def Project.get_services {C : Type} (p : Project C)
    (service_names : Option (List String)) :
    Except FigError (List (Service C)) :=
  match service_names with
  | none => .ok p.services
  | some names =>
    if names.length = 0 then .ok p.services
    else
      match getServiceEach p names with
      | .error e => .error e
      | .ok unsorted => .ok (p.services.filter (fun s => serviceMem unsorted s))

/-- The fan-out loop shared by `start`, `stop`, `kill` and `remove_stopped`:
invoke the delegated per-service operation (`op`, standing for
`service.start(**options)` and so on) on each service in order.  The first
component records the services on which `op` was invoked, in order; the
second is the first error `op` raised, if any — the loop stops there, so
services after it are never invoked and earlier invocations stand. -/
def opLoop {C : Type} {ε : Type} (op : Service C → Except ε Unit) :
    List (Service C) → List (Service C) × Option ε
  | [] => ([], none)
  | s :: rest =>
    match op s with
    | .error e => ([s], some e)
    | .ok _ =>
      match opLoop op rest with
      | (tr, r) => (s :: tr, r)

/-- Model of `Project.start(service_names, **options)`: resolve the subset
via `get_services`, then invoke `service.start` on each member in order. -/
def Project.start {C : Type} {ε : Type} (p : Project C)
    (service_names : Option (List String)) (op : Service C → Except ε Unit) :
    Except FigError (List (Service C) × Option ε) :=
  (p.get_services service_names).map (fun svcs => opLoop op svcs)

/-- Model of `Project.stop(service_names, **options)`. -/
def Project.stop {C : Type} {ε : Type} (p : Project C)
    (service_names : Option (List String)) (op : Service C → Except ε Unit) :
    Except FigError (List (Service C) × Option ε) :=
  (p.get_services service_names).map (fun svcs => opLoop op svcs)

/-- Model of `Project.kill(service_names, **options)`. -/
def Project.kill {C : Type} {ε : Type} (p : Project C)
    (service_names : Option (List String)) (op : Service C → Except ε Unit) :
    Except FigError (List (Service C) × Option ε) :=
  (p.get_services service_names).map (fun svcs => opLoop op svcs)

/-- Model of `Project.remove_stopped(service_names, **options)`. -/
def Project.remove_stopped {C : Type} {ε : Type} (p : Project C)
    (service_names : Option (List String)) (op : Service C → Except ε Unit) :
    Except FigError (List (Service C) × Option ε) :=
  (p.get_services service_names).map (fun svcs => opLoop op svcs)

/-- The loop of `Project.build`: invoke `service.build(**options)` only on
services whose `can_be_built()` is true; a service with `can_be_built()`
false is skipped (the code logs a note) and never appears in the
invocation trace. -/
def buildLoop {C : Type} {ε : Type} (canB : Service C → Bool)
    (op : Service C → Except ε Unit) :
    List (Service C) → List (Service C) × Option ε
  | [] => ([], none)
  | s :: rest =>
    if canB s then
      match op s with
      | .error e => ([s], some e)
      | .ok _ =>
        match buildLoop canB op rest with
        | (tr, r) => (s :: tr, r)
    else buildLoop canB op rest

/-- Model of `Project.build(service_names, **options)`: resolve the subset,
then build each buildable member in order. -/
def Project.build {C : Type} {ε : Type} (p : Project C)
    (service_names : Option (List String)) (canB : Service C → Bool)
    (op : Service C → Except ε Unit) :
    Except FigError (List (Service C) × Option ε) :=
  (p.get_services service_names).map (fun svcs => buildLoop canB op svcs)

/-- The loop of `Project.recreate_containers`: call
`service.recreate_containers()` (the oracle `rec`, returning the pair of
old and new containers) on each service in order, tagging every returned
container with its owning service and concatenating in order.  The trace
and error components are as in `opLoop`. -/
def recreateLoop {C : Type} {ε : Type} {γ : Type}
    (rec : Service C → Except ε (List γ × List γ)) :
    List (Service C) →
    List (Service C) × List (Service C × γ) × List (Service C × γ) × Option ε
  | [] => ([], [], [], none)
  | s :: rest =>
    match rec s with
    | .error e => ([s], [], [], some e)
    | .ok (sOld, sNew) =>
      match recreateLoop rec rest with
      | (tr, old, new, r) =>
        (s :: tr, sOld.map (fun c => (s, c)) ++ old,
          sNew.map (fun c => (s, c)) ++ new, r)

/-- Model of `Project.recreate_containers(service_names)`. -/
def Project.recreate_containers {C : Type} {ε : Type} {γ : Type}
    (p : Project C) (service_names : Option (List String))
    (rec : Service C → Except ε (List γ × List γ)) :
    Except FigError
      (List (Service C) × List (Service C × γ) × List (Service C × γ) × Option ε) :=
  (p.get_services service_names).map (fun svcs => recreateLoop rec svcs)

/-- All service names in the spec list are pairwise distinct. -/
abbrev UniqueNames (specs : List ServiceSpec) : Prop :=
  (specs.map ServiceSpec.name).Nodup

/-- No spec lists its own name among its links. -/
abbrev NoSelfLink (specs : List ServiceSpec) : Prop :=
  ∀ s ∈ specs, s.name ∉ getLinks s

/-- Every link name of every spec names some spec of the list. -/
abbrev TargetsPresent (specs : List ServiceSpec) : Prop :=
  ∀ s ∈ specs, ∀ l ∈ getLinks s, ∃ t ∈ specs, t.name = l

/-- The link graph is acyclic: some rank function strictly decreases along
every link (for a finite graph this is equivalent to the absence of
directed cycles). -/
def Acyclic (specs : List ServiceSpec) : Prop :=
  ∃ rank : String → Nat, ∀ s ∈ specs, ∀ l ∈ getLinks s, rank l < rank s.name

/-- The ordering property claimed for the resolver: every spec of the
output that links to a name has a spec of that name strictly earlier in
the output. -/
abbrev DepOrdered (out : List ServiceSpec) : Prop :=
  ∀ i : Fin out.length, ∀ l ∈ getLinks (out.get i),
    ∃ j : Fin out.length, j.val < i.val ∧ (out.get j).name = l

/-- Spec `A` of the worked example: no links. -/
def specA : ServiceSpec := ⟨"A", none⟩

/-- Spec `B` of the worked example: links to `A`. -/
def specB : ServiceSpec := ⟨"B", some ["A"]⟩

/-- Spec `C` of the worked example: links to `B`. -/
def specC : ServiceSpec := ⟨"C", some ["B"]⟩

/-- A rank function witnessing that the `A`, `B`, `C` chain is acyclic. -/
def rankABC : String → Nat :=
  fun nm => if nm = "A" then 0 else if nm = "B" then 1 else 2

/-- C1: the claim asserts that on every valid input `sort_service_dicts`
places every link target strictly before its dependent, and in particular
orders any permutation of the `A`, `B`, `C` chain as `A`, `B`, `C`.  The
code violates this: the input `[A, B, C]` is valid (unique names, no self
link, all targets present, acyclic), yet the returned order is
`[A, C, B]`, which puts `C` before its link target `B` and hence is not
dependency-ordered. -/
theorem C1_sort_misorders_valid_input :
    sort_service_dicts [specA, specB, specC] = .ok [specA, specC, specB] ∧
    UniqueNames [specA, specB, specC] ∧ NoSelfLink [specA, specB, specC] ∧
    TargetsPresent [specA, specB, specC] ∧ Acyclic [specA, specB, specC] ∧
    ¬ DepOrdered [specA, specC, specB] :=
  ⟨by rfl, by decide, by decide, by decide, ⟨rankABC, by decide⟩, by decide⟩

/-- C2: the claim asserts that `Project.from_dicts` succeeds on the
`A`, `B`, `C` chain in any input order, resolving every link name among the
handles already constructed.  The code violates this: on the input order
`[A, B, C]` the resolver returns `[A, C, B]`, so when `C` is constructed
its link target `B` does not exist yet and construction aborts with
`NoSuchService("B")`. -/
theorem C2_from_dicts_fails_on_valid_order :
    Project.from_dicts "test" [specA, specB, specC] () =
      .error (.noSuchService "B") := by
  rfl

/-- C5 counterexample: the claim quantifies over all inputs with link
targets present and no self-links; it does not require unique names.  With
duplicated names the lookup `next(s for s in services if l == s['name'])`
can resolve a link to a same-named leaf spec instead of the mutually
linking spec, so the circular check never fires: this input contains the
mutually linked pair (`a` links `b`, `b` links `a`) yet the sort returns
an order instead of raising `DependencyError`. -/
theorem C5_mutual_link_not_detected_with_duplicate_names :
    TargetsPresent [⟨"a", none⟩, ⟨"a", some ["b"]⟩, ⟨"b", none⟩, ⟨"b", some ["a"]⟩] ∧
    NoSelfLink [⟨"a", none⟩, ⟨"a", some ["b"]⟩, ⟨"b", none⟩, ⟨"b", some ["a"]⟩] ∧
    (∃ A ∈ [⟨"a", none⟩, ⟨"a", some ["b"]⟩, ⟨"b", none⟩, (⟨"b", some ["a"]⟩ : ServiceSpec)],
      ∃ B ∈ [⟨"a", none⟩, ⟨"a", some ["b"]⟩, ⟨"b", none⟩, (⟨"b", some ["a"]⟩ : ServiceSpec)],
        A ≠ B ∧ B.name ∈ getLinks A ∧ A.name ∈ getLinks B) ∧
    sort_service_dicts [⟨"a", none⟩, ⟨"a", some ["b"]⟩, ⟨"b", none⟩, ⟨"b", some ["a"]⟩] =
      .ok [⟨"b", none⟩, ⟨"a", none⟩, ⟨"b", some ["a"]⟩, ⟨"a", some ["b"]⟩] :=
  ⟨by decide, by decide, by decide, by rfl⟩

theorem hasLinks_iff {s : ServiceSpec} : hasLinks s = true ↔ getLinks s ≠ [] := by
  simp [hasLinks, List.isEmpty_iff]

theorem processLinks_ok_findable {services : List ServiceSpec} {n : ServiceSpec} :
    ∀ {ls : List String} {sorted out : List ServiceSpec},
      processLinks services n ls sorted = .ok out →
      ∀ l ∈ ls, ∃ t ∈ services, t.name = l := by
  intro ls
  induction ls with
  | nil => intro _ _ _ l hl; cases hl
  | cons l rest ih =>
    intro sorted out h l' hl'
    rw [processLinks] at h
    cases hfind : services.find? (fun s => s.name == l) with
    | none => rw [hfind] at h; cases h
    | some linked =>
      rw [hfind] at h
      have hmem := List.mem_of_find?_eq_some hfind
      have hname : linked.name = l := by
        have := List.find?_some hfind
        simpa using this
      rcases List.mem_cons.mp hl' with rfl | hrest
      · exact ⟨linked, hmem, hname⟩
      · by_cases hcirc : n.name ∈ getLinks linked
        · simp [hcirc] at h
        · by_cases hins : getLinks linked = [] ∧ linked ∉ sorted
          · simp [hcirc, hins] at h
            exact ih h l' hrest
          · simp [hcirc, hins] at h
            exact ih h l' hrest

theorem sortLoop_ok_findable {services : List ServiceSpec} :
    ∀ {stack sorted out : List ServiceSpec},
      sortLoop services stack sorted = .ok out →
      ∀ n ∈ stack, ∀ l ∈ getLinks n, ∃ t ∈ services, t.name = l := by
  intro stack
  induction stack with
  | nil => intro _ _ _ n hn; cases hn
  | cons n rest ih =>
    intro sorted out h m hm l hl
    rw [sortLoop] at h
    by_cases hself : n.name ∈ getLinks n
    · simp [hself] at h
    · simp only [if_neg hself] at h
      cases hpl : processLinks services n (getLinks n) (sorted ++ [n]) with
      | error e => rw [hpl] at h; cases h
      | ok sorted2 =>
        rw [hpl] at h
        rcases List.mem_cons.mp hm with rfl | hrest
        · exact processLinks_ok_findable hpl l hl
        · exact ih h m hrest l hl

theorem processLinks_dep_or_ok (services : List ServiceSpec) (n : ServiceSpec) :
    ∀ (ls : List String) (sorted : List ServiceSpec),
      (∀ l ∈ ls, ∃ t ∈ services, t.name = l) →
      (∃ m, processLinks services n ls sorted = .error (.dependencyError m)) ∨
        (∃ out, processLinks services n ls sorted = .ok out) := by
  intro ls
  induction ls with
  | nil => intro sorted _; exact Or.inr ⟨sorted, rfl⟩
  | cons l rest ih =>
    intro sorted hfindable
    obtain ⟨t, ht, htn⟩ := hfindable l (List.mem_cons_self l rest)
    have hsome : (services.find? (fun s => s.name == l)).isSome = true :=
      List.find?_isSome.mpr ⟨t, ht, by simpa using htn⟩
    cases hfind : services.find? (fun s => s.name == l) with
    | none => rw [hfind] at hsome; cases hsome
    | some linked =>
      by_cases hcirc : n.name ∈ getLinks linked
      · exact Or.inl ⟨"Circular import between " ++ n.name ++ " and " ++ linked.name,
          by rw [processLinks, hfind]; simp [hcirc]⟩
      · have hrest : ∀ l' ∈ rest, ∃ t ∈ services, t.name = l' :=
          fun l' hl' => hfindable l' (List.mem_cons_of_mem l hl')
        by_cases hins : getLinks linked = [] ∧ linked ∉ sorted
        · have := ih (linked :: sorted) hrest
          rw [processLinks, hfind]
          simpa [hcirc, hins] using this
        · have := ih sorted hrest
          rw [processLinks, hfind]
          simpa [hcirc, hins] using this

theorem processLinks_circular (services : List ServiceSpec) (n : ServiceSpec) :
    ∀ (ls : List String) (sorted : List ServiceSpec),
      (∀ l ∈ ls, ∃ t ∈ services, t.name = l) →
      (∃ l ∈ ls, ∀ t, services.find? (fun s => s.name == l) = some t →
        n.name ∈ getLinks t) →
      ∃ m, processLinks services n ls sorted = .error (.dependencyError m) := by
  intro ls
  induction ls with
  | nil => intro _ _ hwit; simp at hwit
  | cons l rest ih =>
    intro sorted hfindable hwit
    obtain ⟨t, ht, htn⟩ := hfindable l (List.mem_cons_self l rest)
    have hsome : (services.find? (fun s => s.name == l)).isSome = true :=
      List.find?_isSome.mpr ⟨t, ht, by simpa using htn⟩
    cases hfind : services.find? (fun s => s.name == l) with
    | none => rw [hfind] at hsome; cases hsome
    | some linked =>
      by_cases hcirc : n.name ∈ getLinks linked
      · exact ⟨"Circular import between " ++ n.name ++ " and " ++ linked.name,
          by rw [processLinks, hfind]; simp [hcirc]⟩
      · have hrest : ∀ l' ∈ rest, ∃ t ∈ services, t.name = l' :=
          fun l' hl' => hfindable l' (List.mem_cons_of_mem l hl')
        obtain ⟨l0, hl0, hl0p⟩ := hwit
        rcases List.mem_cons.mp hl0 with rfl | hl0r
        · exact absurd (hl0p linked hfind) hcirc
        · by_cases hins : getLinks linked = [] ∧ linked ∉ sorted
          · have := ih (linked :: sorted) hrest ⟨l0, hl0r, hl0p⟩
            rw [processLinks, hfind]
            simpa [hcirc, hins] using this
          · have := ih sorted hrest ⟨l0, hl0r, hl0p⟩
            rw [processLinks, hfind]
            simpa [hcirc, hins] using this

theorem sortLoop_self_error (services : List ServiceSpec) :
    ∀ (stack sorted : List ServiceSpec),
      (∀ x ∈ stack, ∀ l ∈ getLinks x, ∃ t ∈ services, t.name = l) →
      (∃ s ∈ stack, s.name ∈ getLinks s) →
      ∃ m, sortLoop services stack sorted = .error (.dependencyError m) := by
  intro stack
  induction stack with
  | nil => intro _ _ hwit; simp at hwit
  | cons n rest ih =>
    intro sorted hfindable hwit
    by_cases hself : n.name ∈ getLinks n
    · exact ⟨"A service can not link to itself: " ++ n.name,
        by rw [sortLoop]; simp [hself]⟩
    · have hn : ∀ l ∈ getLinks n, ∃ t ∈ services, t.name = l :=
        hfindable n (List.mem_cons_self n rest)
      have hrestf : ∀ x ∈ rest, ∀ l ∈ getLinks x, ∃ t ∈ services, t.name = l :=
        fun x hx => hfindable x (List.mem_cons_of_mem n hx)
      obtain ⟨s, hs, hsl⟩ := hwit
      rcases List.mem_cons.mp hs with rfl | hsr
      · exact absurd hsl hself
      · rcases processLinks_dep_or_ok services n (getLinks n) (sorted ++ [n]) hn with
          ⟨m, hm⟩ | ⟨out, hout⟩
        · exact ⟨m, by rw [sortLoop]; simp [hself, hm]⟩
        · obtain ⟨m, hm⟩ := ih out hrestf ⟨s, hsr, hsl⟩
          exact ⟨m, by rw [sortLoop]; simp [hself, hout, hm]⟩

theorem sortLoop_circular_error (services : List ServiceSpec) :
    ∀ (stack sorted : List ServiceSpec),
      (∀ x ∈ stack, ∀ l ∈ getLinks x, ∃ t ∈ services, t.name = l) →
      (∀ x ∈ stack, x.name ∉ getLinks x) →
      (∃ A ∈ stack, ∃ l ∈ getLinks A, ∀ t,
        services.find? (fun s => s.name == l) = some t → A.name ∈ getLinks t) →
      ∃ m, sortLoop services stack sorted = .error (.dependencyError m) := by
  intro stack
  induction stack with
  | nil => intro _ _ _ hwit; simp at hwit
  | cons n rest ih =>
    intro sorted hfindable hnself hwit
    have hself : n.name ∉ getLinks n := hnself n (List.mem_cons_self n rest)
    have hn : ∀ l ∈ getLinks n, ∃ t ∈ services, t.name = l :=
      hfindable n (List.mem_cons_self n rest)
    have hrestf : ∀ x ∈ rest, ∀ l ∈ getLinks x, ∃ t ∈ services, t.name = l :=
      fun x hx => hfindable x (List.mem_cons_of_mem n hx)
    have hrests : ∀ x ∈ rest, x.name ∉ getLinks x :=
      fun x hx => hnself x (List.mem_cons_of_mem n hx)
    obtain ⟨A, hA, hAw⟩ := hwit
    rcases List.mem_cons.mp hA with rfl | hAr
    · obtain ⟨m, hm⟩ := processLinks_circular services A (getLinks A) (sorted ++ [A]) hn hAw
      exact ⟨m, by rw [sortLoop]; simp [hself, hm]⟩
    · rcases processLinks_dep_or_ok services n (getLinks n) (sorted ++ [n]) hn with
        ⟨m, hm⟩ | ⟨out, hout⟩
      · exact ⟨m, by rw [sortLoop]; simp [hself, hm]⟩
      · obtain ⟨m, hm⟩ := ih out hrestf hrests ⟨A, hAr, hAw⟩
        exact ⟨m, by rw [sortLoop]; simp [hself, hout, hm]⟩

theorem mem_sortStack {specs : List ServiceSpec} {s : ServiceSpec}
    (hs : s ∈ specs) (hl : getLinks s ≠ []) :
    s ∈ (dependent_services specs).reverse := by
  rw [dependent_services, List.mem_reverse, List.mem_filter]
  exact ⟨hs, hasLinks_iff.mpr hl⟩

theorem sortStack_subset {specs : List ServiceSpec} {x : ServiceSpec}
    (hx : x ∈ (dependent_services specs).reverse) : x ∈ specs := by
  rw [dependent_services, List.mem_reverse, List.mem_filter] at hx
  exact hx.1


/-- C4: every input whose link targets are all present and that contains a
spec linking to its own name makes `sort_service_dicts` raise
`DependencyError` instead of returning an order. -/
theorem C4_self_link_raises_dependency_error (specs : List ServiceSpec)
    (hp : TargetsPresent specs)
    (hself : ∃ s ∈ specs, s.name ∈ getLinks s) :
    ∃ msg, sort_service_dicts specs = .error (.dependencyError msg) := by
  obtain ⟨s, hs, hsl⟩ := hself
  have hfindable : ∀ x ∈ (dependent_services specs).reverse,
      ∀ l ∈ getLinks x, ∃ t ∈ specs, t.name = l :=
    fun x hx => hp x (sortStack_subset hx)
  have hmem : s ∈ (dependent_services specs).reverse :=
    mem_sortStack hs (by intro h; rw [h] at hsl; cases hsl)
  obtain ⟨m, hm⟩ := sortLoop_self_error specs
    ((dependent_services specs).reverse) [] hfindable ⟨s, hmem, hsl⟩
  exact ⟨m, by simp [sort_service_dicts, hm, Except.map]⟩

/-- Witness for C4 at the concrete input of a single spec linking to its
own name. -/
theorem C4_self_link_raises_dependency_error_witness :
    ∃ msg, sort_service_dicts [⟨"X", some ["X"]⟩] =
      .error (.dependencyError msg) :=
  C4_self_link_raises_dependency_error [⟨"X", some ["X"]⟩] (by decide) (by decide)

/-- C5 (amended with unique names): on every input with pairwise distinct
spec names, all link targets present and no self-links, two distinct specs
that link to each other make `sort_service_dicts` raise `DependencyError`
instead of returning an order. -/
theorem C5_mutual_link_raises_with_unique_names (specs : List ServiceSpec)
    (hu : UniqueNames specs) (hp : TargetsPresent specs) (hns : NoSelfLink specs)
    (hmut : ∃ A ∈ specs, ∃ B ∈ specs,
      A ≠ B ∧ B.name ∈ getLinks A ∧ A.name ∈ getLinks B) :
    ∃ msg, sort_service_dicts specs = .error (.dependencyError msg) := by
  obtain ⟨A, hA, B, hB, _, hAB, hBA⟩ := hmut
  have hfindable : ∀ x ∈ (dependent_services specs).reverse,
      ∀ l ∈ getLinks x, ∃ t ∈ specs, t.name = l :=
    fun x hx => hp x (sortStack_subset hx)
  have hnself : ∀ x ∈ (dependent_services specs).reverse,
      x.name ∉ getLinks x :=
    fun x hx => hns x (sortStack_subset hx)
  have hmemA : A ∈ (dependent_services specs).reverse :=
    mem_sortStack hA (by intro he; rw [he] at hAB; cases hAB)
  have hwit : ∀ t, specs.find? (fun s => s.name == B.name) = some t →
      A.name ∈ getLinks t := by
    intro t hfind
    have ht : t ∈ specs := List.mem_of_find?_eq_some hfind
    have htn : t.name = B.name := by
      have := List.find?_some hfind
      simpa using this
    have : t = B := List.inj_on_of_nodup_map hu ht hB htn
    rw [this]
    exact hBA
  obtain ⟨m, hm⟩ := sortLoop_circular_error specs
    ((dependent_services specs).reverse) [] hfindable hnself
    ⟨A, hmemA, B.name, hAB, hwit⟩
  exact ⟨m, by simp [sort_service_dicts, hm, Except.map]⟩

/-- Witness for C5 at the concrete two-spec mutual pair with distinct
names. -/
theorem C5_mutual_link_raises_with_unique_names_witness :
    ∃ msg, sort_service_dicts [⟨"a", some ["b"]⟩, ⟨"b", some ["a"]⟩] =
      .error (.dependencyError msg) :=
  C5_mutual_link_raises_with_unique_names
    [⟨"a", some ["b"]⟩, ⟨"b", some ["a"]⟩]
    (by decide) (by decide) (by decide) (by decide)

/-- C6: every input containing a spec one of whose link names matches no
spec of the input makes `sort_service_dicts` fail with an error rather
than return an order with the missing target skipped. -/
theorem C6_missing_link_target_errors (specs : List ServiceSpec)
    (hmiss : ∃ s ∈ specs, ∃ l ∈ getLinks s, ∀ t ∈ specs, t.name ≠ l) :
    ∃ e, sort_service_dicts specs = .error e := by
  cases h : sortLoop specs ((dependent_services specs).reverse) [] with
  | error e => exact ⟨e, by simp [sort_service_dicts, h, Except.map]⟩
  | ok out =>
    exfalso
    obtain ⟨s, hs, l, hl, hnone⟩ := hmiss
    have hmem : s ∈ (dependent_services specs).reverse :=
      mem_sortStack hs (by intro he; rw [he] at hl; cases hl)
    obtain ⟨t, ht, htn⟩ := sortLoop_ok_findable h s hmem l hl
    exact hnone t ht htn

/-- Witness for C6 at the concrete input of one spec linking to an absent
name. -/
theorem C6_missing_link_target_errors_witness :
    ∃ e, sort_service_dicts [⟨"X", some ["ghost"]⟩] = .error e :=
  C6_missing_link_target_errors [⟨"X", some ["ghost"]⟩] (by decide)

theorem uniqNames {specs : List ServiceSpec} (hu : UniqueNames specs)
    {x y : ServiceSpec} (hx : x ∈ specs) (hy : y ∈ specs)
    (h : x.name = y.name) : x = y :=
  List.inj_on_of_nodup_map hu hx hy h

theorem processLinks_ok_spec (specs : List ServiceSpec)
    (hu : UniqueNames specs) (rank : String → Nat)
    (hr : ∀ s ∈ specs, ∀ l ∈ getLinks s, rank l < rank s.name)
    (hp : TargetsPresent specs)
    (n : ServiceSpec) (hn : n ∈ specs) :
    ∀ (ls : List String) (sorted : List ServiceSpec),
      (∀ l ∈ ls, l ∈ getLinks n) →
      sorted.Nodup →
      ∃ out, processLinks specs n ls sorted = .ok out ∧ out.Nodup ∧
        (∀ x, x ∈ out ↔ x ∈ sorted ∨
          (x ∈ specs ∧ getLinks x = [] ∧ x.name ∈ ls)) := by
  intro ls
  induction ls with
  | nil =>
    intro sorted _ hnd
    exact ⟨sorted, rfl, hnd, by simp⟩
  | cons l rest ih =>
    intro sorted hls hnd
    have hlgl : l ∈ getLinks n := hls l (List.mem_cons_self l rest)
    obtain ⟨t, ht, htn⟩ := hp n hn l hlgl
    have hsome : (specs.find? (fun s => s.name == l)).isSome = true :=
      List.find?_isSome.mpr ⟨t, ht, by simpa using htn⟩
    cases hfind : specs.find? (fun s => s.name == l) with
    | none => rw [hfind] at hsome; cases hsome
    | some linked =>
      have hlinked : linked ∈ specs := List.mem_of_find?_eq_some hfind
      have hlname : linked.name = l := by
        have := List.find?_some hfind
        simpa using this
      have hcirc : n.name ∉ getLinks linked := by
        intro hmem
        have h1 : rank l < rank n.name := hr n hn l hlgl
        have h2 : rank n.name < rank linked.name := hr linked hlinked n.name hmem
        rw [hlname] at h2
        exact absurd (h1.trans h2) (lt_irrefl _)
      have hrest : ∀ l' ∈ rest, l' ∈ getLinks n :=
        fun l' hl' => hls l' (List.mem_cons_of_mem l hl')
      by_cases hins : getLinks linked = [] ∧ linked ∉ sorted
      · obtain ⟨out, hout, hndo, hmemo⟩ := ih (linked :: sorted) hrest
          (List.nodup_cons.mpr ⟨hins.2, hnd⟩)
        refine ⟨out, ?_, hndo, ?_⟩
        · rw [processLinks, hfind]
          simpa [hcirc, hins] using hout
        · intro x
          rw [hmemo x]
          constructor
          · rintro (hx | hx)
            · rcases List.mem_cons.mp hx with rfl | hx'
              · exact Or.inr ⟨hlinked, hins.1, by rw [hlname]; exact List.mem_cons_self l rest⟩
              · exact Or.inl hx'
            · exact Or.inr ⟨hx.1, hx.2.1, List.mem_cons_of_mem l hx.2.2⟩
          · rintro (hx | ⟨hxs, hxl, hxn⟩)
            · exact Or.inl (List.mem_cons_of_mem linked hx)
            · rcases List.mem_cons.mp hxn with hxeq | hx'
              · have : x = linked := uniqNames hu hxs hlinked (by rw [hxeq, hlname])
                exact Or.inl (this ▸ List.mem_cons_self linked sorted)
              · exact Or.inr ⟨hxs, hxl, hx'⟩
      · obtain ⟨out, hout, hndo, hmemo⟩ := ih sorted hrest hnd
        refine ⟨out, ?_, hndo, ?_⟩
        · rw [processLinks, hfind]
          simpa [hcirc, hins] using hout
        · intro x
          rw [hmemo x]
          constructor
          · rintro (hx | hx)
            · exact Or.inl hx
            · exact Or.inr ⟨hx.1, hx.2.1, List.mem_cons_of_mem l hx.2.2⟩
          · rintro (hx | ⟨hxs, hxl, hxn⟩)
            · exact Or.inl hx
            · rcases List.mem_cons.mp hxn with hxeq | hx'
              · have hxeq2 : x = linked := uniqNames hu hxs hlinked (by rw [hxeq, hlname])
                subst hxeq2
                rcases not_and_or.mp hins with hbad | hsmem
                · exact absurd hxl hbad
                · exact Or.inl (not_not.mp hsmem)
              · exact Or.inr ⟨hxs, hxl, hx'⟩

theorem no_self_of_rank {specs : List ServiceSpec} {rank : String → Nat}
    (hr : ∀ s ∈ specs, ∀ l ∈ getLinks s, rank l < rank s.name)
    {n : ServiceSpec} (hn : n ∈ specs) : n.name ∉ getLinks n := by
  intro h
  exact absurd (hr n hn n.name h) (lt_irrefl _)

theorem sortLoop_ok_spec (specs : List ServiceSpec)
    (hu : UniqueNames specs) (rank : String → Nat)
    (hr : ∀ s ∈ specs, ∀ l ∈ getLinks s, rank l < rank s.name)
    (hp : TargetsPresent specs) :
    ∀ (stack sorted : List ServiceSpec),
      stack.Nodup →
      sorted.Nodup →
      (∀ x ∈ stack, x ∈ specs ∧ getLinks x ≠ []) →
      (∀ x ∈ stack, x ∉ sorted) →
      ∃ out, sortLoop specs stack sorted = .ok out ∧ out.Nodup ∧
        (∀ x, x ∈ out ↔ x ∈ sorted ∨ x ∈ stack ∨
          (x ∈ specs ∧ getLinks x = [] ∧ ∃ m ∈ stack, x.name ∈ getLinks m)) := by
  intro stack
  induction stack with
  | nil =>
    intro sorted _ hnd _ _
    exact ⟨sorted, rfl, hnd, by simp⟩
  | cons n rest ih =>
    intro sorted hndstk hnd hstk hdisj
    have hn : n ∈ specs := (hstk n (List.mem_cons_self n rest)).1
    have hself : n.name ∉ getLinks n := no_self_of_rank hr hn
    have hnin : n ∉ sorted := hdisj n (List.mem_cons_self n rest)
    have hnd2 : (sorted ++ [n]).Nodup := by
      rw [List.nodup_append]
      refine ⟨hnd, List.nodup_singleton n, ?_⟩
      intro a ha hb
      rw [List.mem_singleton] at hb
      subst hb
      exact absurd ha hnin
    obtain ⟨out1, hout1, hnd1, hmem1⟩ :=
      processLinks_ok_spec specs hu rank hr hp n hn (getLinks n) (sorted ++ [n])
        (fun _ h => h) hnd2
    have hndrest : rest.Nodup := (List.nodup_cons.mp hndstk).2
    have hninrest : n ∉ rest := (List.nodup_cons.mp hndstk).1
    have hstkrest : ∀ x ∈ rest, x ∈ specs ∧ getLinks x ≠ [] :=
      fun x hx => hstk x (List.mem_cons_of_mem n hx)
    have hdisjrest : ∀ x ∈ rest, x ∉ out1 := by
      intro x hx hxo
      rcases (hmem1 x).mp hxo with hxs | ⟨_, hxl, _⟩
      · rcases List.mem_append.mp hxs with hxs' | hxn
        · exact hdisj x (List.mem_cons_of_mem n hx) hxs'
        · rw [List.mem_singleton] at hxn
          subst hxn
          exact hninrest hx
      · exact (hstkrest x hx).2 hxl
    obtain ⟨out, hout, hndo, hmemo⟩ := ih out1 hndrest hnd1 hstkrest hdisjrest
    refine ⟨out, ?_, hndo, ?_⟩
    · rw [sortLoop]
      simp [hself, hout1, hout]
    · intro x
      rw [hmemo x]
      constructor
      · rintro (hx | hx | ⟨hxs, hxl, m, hm, hml⟩)
        · rcases (hmem1 x).mp hx with hxs | ⟨hxs, hxl, hxn⟩
          · rcases List.mem_append.mp hxs with hxs' | hxn
            · exact Or.inl hxs'
            · rw [List.mem_singleton] at hxn
              exact Or.inr (Or.inl (hxn ▸ List.mem_cons_self n rest))
          · exact Or.inr (Or.inr ⟨hxs, hxl, n, List.mem_cons_self n rest, hxn⟩)
        · exact Or.inr (Or.inl (List.mem_cons_of_mem n hx))
        · exact Or.inr (Or.inr ⟨hxs, hxl, m, List.mem_cons_of_mem n hm, hml⟩)
      · rintro (hx | hx | ⟨hxs, hxl, m, hm, hml⟩)
        · exact Or.inl ((hmem1 x).mpr (Or.inl (List.mem_append.mpr (Or.inl hx))))
        · rcases List.mem_cons.mp hx with rfl | hx'
          · exact Or.inl ((hmem1 x).mpr (Or.inl (List.mem_append.mpr (Or.inr (List.mem_singleton.mpr rfl)))))
          · exact Or.inr (Or.inl hx')
        · rcases List.mem_cons.mp hm with rfl | hm'
          · exact Or.inl ((hmem1 x).mpr (Or.inr ⟨hxs, hxl, hml⟩))
          · exact Or.inr (Or.inr ⟨hxs, hxl, m, hm', hml⟩)

theorem mem_flatten_links {specs : List ServiceSpec} {a : String} :
    a ∈ flatten_links specs ↔ ∃ m ∈ specs, getLinks m ≠ [] ∧ a ∈ getLinks m := by
  simp only [flatten_links, dependent_services, List.mem_flatten, List.mem_map,
    List.mem_filter]
  constructor
  · rintro ⟨ls, ⟨m, ⟨hm, hml⟩, rfl⟩, ha⟩
    exact ⟨m, hm, hasLinks_iff.mp hml, ha⟩
  · rintro ⟨m, hm, hml, ha⟩
    exact ⟨getLinks m, ⟨m, ⟨hm, hasLinks_iff.mpr hml⟩, rfl⟩, ha⟩

theorem mem_non_dependent {specs : List ServiceSpec} {a : ServiceSpec} :
    a ∈ non_dependent_sevices specs ↔
      a ∈ specs ∧ a.name ∉ flatten_links specs ∧ getLinks a = [] := by
  simp only [non_dependent_sevices, List.mem_filter, Bool.and_eq_true,
    Bool.not_eq_true']
  constructor
  · rintro ⟨ha, h1, h2⟩
    refine ⟨ha, ?_, ?_⟩
    · intro hmem
      rw [Bool.eq_false_iff] at h1
      exact h1 (List.elem_iff.mpr hmem)
    · by_contra hne
      rw [hasLinks_iff.mpr hne] at h2
      cases h2
  · rintro ⟨ha, h1, h2⟩
    refine ⟨ha, ?_, ?_⟩
    · rw [Bool.eq_false_iff]
      intro hc
      exact h1 (List.elem_iff.mp hc)
    · by_contra hne
      rw [Bool.not_eq_false, hasLinks_iff] at hne
      exact hne h2

theorem mem_depStack {specs : List ServiceSpec} {a : ServiceSpec} :
    a ∈ (dependent_services specs).reverse ↔ a ∈ specs ∧ getLinks a ≠ [] := by
  rw [dependent_services, List.mem_reverse, List.mem_filter]
  exact ⟨fun h => ⟨h.1, hasLinks_iff.mp h.2⟩, fun h => ⟨h.1, hasLinks_iff.mpr h.2⟩⟩

/-- Helper: on a valid input the sort succeeds and returns a permutation
of the input. -/
theorem sort_perm_of_valid (specs : List ServiceSpec)
    (hu : UniqueNames specs) (hacyc : Acyclic specs)
    (hp : TargetsPresent specs) :
    ∃ out, sort_service_dicts specs = .ok out ∧ out.Perm specs := by
  obtain ⟨rank, hr⟩ := hacyc
  have hnodup : specs.Nodup := List.Nodup.of_map ServiceSpec.name hu
  have hstknd : ((dependent_services specs).reverse).Nodup := by
    rw [List.nodup_reverse, dependent_services]
    exact hnodup.filter _
  have hstk : ∀ x ∈ (dependent_services specs).reverse,
      x ∈ specs ∧ getLinks x ≠ [] := fun x hx => mem_depStack.mp hx
  obtain ⟨out, hout, hndo, hmemo⟩ := sortLoop_ok_spec specs hu rank hr hp
    ((dependent_services specs).reverse) [] hstknd List.nodup_nil hstk (by simp)
  have hsort : sort_service_dicts specs = .ok (non_dependent_sevices specs ++ out) := by
    rw [sort_service_dicts, hout]
    rfl
  refine ⟨non_dependent_sevices specs ++ out, hsort, ?_⟩
  have hndnd : (non_dependent_sevices specs).Nodup := by
    rw [non_dependent_sevices]
    exact hnodup.filter _
  have hdisj : ∀ a ∈ non_dependent_sevices specs, a ∉ out := by
    intro a ha hao
    obtain ⟨has, hafl, hal⟩ := mem_non_dependent.mp ha
    rcases (hmemo a).mp hao with hnil | hstk' | ⟨_, _, m, hm, hml⟩
    · cases hnil
    · exact (mem_depStack.mp hstk').2 hal
    · obtain ⟨hms, hmne⟩ := mem_depStack.mp hm
      exact hafl (mem_flatten_links.mpr ⟨m, hms, hmne, hml⟩)
  have hndf : (non_dependent_sevices specs ++ out).Nodup := by
    rw [List.nodup_append]
    exact ⟨hndnd, hndo, hdisj⟩
  rw [List.perm_ext_iff_of_nodup hndf hnodup]
  intro a
  rw [List.mem_append]
  constructor
  · rintro (ha | ha)
    · exact (mem_non_dependent.mp ha).1
    · rcases (hmemo a).mp ha with hnil | hstk' | ⟨has, _, _⟩
      · cases hnil
      · exact (mem_depStack.mp hstk').1
      · exact has
  · intro ha
    by_cases hl : getLinks a = []
    · by_cases hf : a.name ∈ flatten_links specs
      · obtain ⟨m, hms, hmne, hml⟩ := mem_flatten_links.mp hf
        exact Or.inr ((hmemo a).mpr (Or.inr (Or.inr
          ⟨ha, hl, m, mem_depStack.mpr ⟨hms, hmne⟩, hml⟩)))
      · exact Or.inl (mem_non_dependent.mpr ⟨ha, hf, hl⟩)
    · exact Or.inr ((hmemo a).mpr (Or.inr (Or.inl (mem_depStack.mpr ⟨ha, hl⟩))))

/-- C3: on every valid input (unique names, acyclic links, no self-links,
all link targets present) `sort_service_dicts` returns a permutation of
its input, each spec exactly once, none dropped or duplicated; on the
empty input it returns the empty list. -/
theorem C3_sort_returns_permutation (specs : List ServiceSpec)
    (hu : UniqueNames specs) (hacyc : Acyclic specs)
    (_hns : NoSelfLink specs) (hp : TargetsPresent specs) :
    sort_service_dicts ([] : List ServiceSpec) = .ok [] ∧
    ∃ out, sort_service_dicts specs = .ok out ∧ out.Perm specs :=
  ⟨rfl, sort_perm_of_valid specs hu hacyc hp⟩

/-- Witness for C3 at the concrete valid input `[C, B, A]`. -/
theorem C3_sort_returns_permutation_witness :
    sort_service_dicts ([] : List ServiceSpec) = .ok [] ∧
    ∃ out, sort_service_dicts [specC, specB, specA] = .ok out ∧
      out.Perm [specC, specB, specA] :=
  C3_sort_returns_permutation [specC, specB, specA] (by decide)
    ⟨rankABC, by decide⟩ (by decide) (by decide)

/-- Helper: on success the construction loop appends exactly the
`links`-stripped processed dicts to the post-state accumulator. -/
theorem fromDictsLoop_post {C : Type} (client : C) (pname : String) :
    ∀ (ds : List ServiceSpec) (proj : Project C) (post : List ServiceSpec)
      (proj2 : Project C) (post2 : List ServiceSpec),
      fromDictsLoop client pname ds proj post = .ok (proj2, post2) →
      post2 = post ++ ds.map delLinks := by
  intro ds
  induction ds with
  | nil =>
    intro proj post proj2 post2 h
    rw [fromDictsLoop] at h
    cases h
    simp
  | cons d rest ih =>
    intro proj post proj2 post2 h
    rw [fromDictsLoop] at h
    cases hg : getServiceEach proj (getLinks d) with
    | error e => rw [hg] at h; cases h
    | ok links =>
      rw [hg] at h
      have := ih _ _ _ _ h
      rw [this]
      simp

/-- C10: `Project.from_dicts` mutates the spec dicts it is given — on a
successful construction over a valid input, the post-state of the caller's
dicts is the input multiset with every `links` key deleted (so any dict
that contained a `links` key is changed); and `Project.from_config` writes
each config entry's key into the dict under `name` before delegating to
`from_dicts`. -/
theorem C10_construction_mutates_spec_dicts {C : Type} (pname : String)
    (specs : List ServiceSpec) (client : C)
    (hu : UniqueNames specs) (hacyc : Acyclic specs) (hp : TargetsPresent specs) :
    (∀ proj post, Project.from_dicts pname specs client = .ok (proj, post) →
      (∀ d2 ∈ post, d2.links = none) ∧
      post.Perm (specs.map delLinks) ∧
      (∀ d ∈ specs, (d.links).isSome = true → delLinks d ≠ d)) ∧
    (∀ config : List (String × ServiceSpec),
      Project.from_config pname config client =
        Project.from_dicts pname
          (config.map (fun entry => { entry.2 with name := entry.1 })) client ∧
      (config.map (fun entry => { entry.2 with name := entry.1 })).map
          ServiceSpec.name = config.map Prod.fst) := by
  constructor
  · intro proj post h
    obtain ⟨out, hout, hperm⟩ := sort_perm_of_valid specs hu hacyc hp
    rw [Project.from_dicts, hout] at h
    have hpost : post = [] ++ out.map delLinks := fromDictsLoop_post client pname out _ [] proj post h
    rw [List.nil_append] at hpost
    subst hpost
    refine ⟨?_, hperm.map delLinks, ?_⟩
    · intro d2 hd2
      obtain ⟨d, _, rfl⟩ := List.mem_map.mp hd2
      rfl
    · intro d _ hsome heq
      have : (delLinks d).links = d.links := congrArg ServiceSpec.links heq
      rw [delLinks] at this
      rw [← this] at hsome
      cases hsome
  · intro config
    exact ⟨rfl, by simp⟩


/-- Witness for C10: on the concrete valid input `[C, B, A]` construction
succeeds and the post-state dicts all have their `links` keys deleted. -/
theorem C10_construction_mutates_spec_dicts_witness :
    (∀ d2 ∈ [(⟨"A", none⟩ : ServiceSpec), ⟨"B", none⟩, ⟨"C", none⟩],
      d2.links = none) ∧
    ([(⟨"A", none⟩ : ServiceSpec), ⟨"B", none⟩, ⟨"C", none⟩]).Perm
      ([specC, specB, specA].map delLinks) := by
  have h := (C10_construction_mutates_spec_dicts "test" [specC, specB, specA] ()
    (by decide) ⟨rankABC, by decide⟩ (by decide)).1
    ⟨"test", [.mk () "test" [] "A", .mk () "test" [.mk () "test" [] "A"] "B",
      .mk () "test" [.mk () "test" [.mk () "test" [] "A"] "B"] "C"], ()⟩
    [⟨"A", none⟩, ⟨"B", none⟩, ⟨"C", none⟩] rfl
  exact ⟨h.1, h.2.1⟩

/-- Helper: when some service carries the requested name, `get_service`
returns a member of the collection carrying it. -/
theorem get_service_ok {C : Type} (p : Project C) (nm : String)
    (h : ∃ s ∈ p.services, s.name = nm) :
    ∃ t, p.get_service nm = .ok t ∧ t ∈ p.services ∧ t.name = nm := by
  obtain ⟨s, hs, hsn⟩ := h
  have hsome : (p.services.find? (fun s => s.name == nm)).isSome = true :=
    List.find?_isSome.mpr ⟨s, hs, by simpa using hsn⟩
  cases hfind : p.services.find? (fun s => s.name == nm) with
  | none => rw [hfind] at hsome; cases hsome
  | some t =>
    refine ⟨t, ?_, List.mem_of_find?_eq_some hfind, ?_⟩
    · rw [Project.get_service, hfind]
    · have := List.find?_some hfind
      simpa using this

/-- Helper: when no service carries the requested name, `get_service`
fails with `NoSuchService` carrying that name. -/
theorem get_service_err {C : Type} (p : Project C) (nm : String)
    (h : ∀ s ∈ p.services, s.name ≠ nm) :
    p.get_service nm = .error (.noSuchService nm) := by
  have hfind : p.services.find? (fun s => s.name == nm) = none :=
    List.find?_eq_none.mpr (fun s hs => by simpa using h s hs)
  rw [Project.get_service, hfind]

/-- Helper: when every requested name exists, the sequence of
`get_service` calls succeeds and the resolved handles carry exactly the
requested names. -/
theorem getServiceEach_ok {C : Type} (p : Project C) :
    ∀ (names : List String),
      (∀ nm ∈ names, ∃ s ∈ p.services, s.name = nm) →
      ∃ unsorted, getServiceEach p names = .ok unsorted ∧
        (∀ t ∈ unsorted, t.name ∈ names) ∧
        (∀ nm ∈ names, ∃ t ∈ unsorted, t.name = nm) := by
  intro names
  induction names with
  | nil => intro _; exact ⟨[], rfl, by simp, by simp⟩
  | cons nm rest ih =>
    intro hall
    obtain ⟨t, hok, htm, htn⟩ :=
      get_service_ok p nm (hall nm (List.mem_cons_self nm rest))
    obtain ⟨unsortedR, hrec, haR, hbR⟩ :=
      ih (fun nm' h' => hall nm' (List.mem_cons_of_mem nm h'))
    refine ⟨t :: unsortedR, ?_, ?_, ?_⟩
    · simp [getServiceEach, hok, hrec, Bind.bind, Except.bind, Pure.pure, Except.pure]
    · intro t' ht'
      rcases List.mem_cons.mp ht' with rfl | h'
      · exact htn ▸ List.mem_cons_self nm rest
      · exact List.mem_cons_of_mem nm (haR t' h')
    · intro nm' hnm'
      rcases List.mem_cons.mp hnm' with rfl | h'
      · exact ⟨t, List.mem_cons_self t unsortedR, htn⟩
      · obtain ⟨t', ht', htn'⟩ := hbR nm' h'
        exact ⟨t', List.mem_cons_of_mem t ht', htn'⟩

/-- Helper: when some requested name is absent, the sequence of
`get_service` calls fails with `NoSuchService` carrying the first absent
name. -/
theorem getServiceEach_err {C : Type} (p : Project C) :
    ∀ (names : List String),
      (∃ nm ∈ names, ∀ s ∈ p.services, s.name ≠ nm) →
      ∃ nm ∈ names, (∀ s ∈ p.services, s.name ≠ nm) ∧
        getServiceEach p names = .error (.noSuchService nm) := by
  intro names
  induction names with
  | nil => intro hex; simp at hex
  | cons nm rest ih =>
    intro hex
    by_cases hnm : ∃ s ∈ p.services, s.name = nm
    · obtain ⟨t, hok, _, _⟩ := get_service_ok p nm hnm
      obtain ⟨nm0, hnm0, hnone0⟩ := hex
      have hnm0r : nm0 ∈ rest := by
        rcases List.mem_cons.mp hnm0 with rfl | h'
        · obtain ⟨s, hs, hsn⟩ := hnm
          exact absurd hsn (hnone0 s hs)
        · exact h'
      obtain ⟨nm1, hnm1, hnone1, herr1⟩ := ih ⟨nm0, hnm0r, hnone0⟩
      exact ⟨nm1, List.mem_cons_of_mem nm hnm1, hnone1,
        by simp [getServiceEach, hok, herr1, Bind.bind, Except.bind]⟩
    · push_neg at hnm
      have herrnm := get_service_err p nm hnm
      exact ⟨nm, List.mem_cons_self nm rest, hnm,
        by simp [getServiceEach, herrnm, Bind.bind, Except.bind]⟩

/-- Helper: with a non-empty request whose names all exist,
`get_services` returns the members of `self.services` whose names were
requested, in collection order. -/
theorem get_services_filter {C : Type} (p : Project C) (names : List String)
    (hne : names ≠ [])
    (hall : ∀ nm ∈ names, ∃ s ∈ p.services, s.name = nm) :
    p.get_services (some names) =
      .ok (p.services.filter (fun s => names.contains s.name)) := by
  obtain ⟨unsorted, hg, ha, hb⟩ := getServiceEach_ok p names hall
  have hlen : ¬ names.length = 0 := by
    intro h0
    exact hne (List.length_eq_zero.mp h0)
  rw [Project.get_services, if_neg hlen, hg]
  show Except.ok (p.services.filter (fun s => serviceMem unsorted s)) =
    Except.ok (p.services.filter (fun s => names.contains s.name))
  congr 1
  apply List.filter_congr
  intro s _
  have h1 : serviceMem unsorted s = true ↔ s.name ∈ names := by
    simp only [serviceMem, List.any_eq_true, beq_iff_eq]
    constructor
    · rintro ⟨t, ht, htn⟩
      exact htn ▸ ha t ht
    · intro hmem
      obtain ⟨t, ht, htn⟩ := hb s.name hmem
      exact ⟨t, ht, htn⟩
  have h2 : names.contains s.name = true ↔ s.name ∈ names := List.elem_iff
  rw [Bool.eq_iff_iff, h1, h2]

/-- C7: `get_services` returns the full sequence for an absent or empty
request; for a non-empty request whose names all exist it returns exactly
the requested members of `self.services` in the collection's order,
independently of the order the names were supplied; and when a requested
name matches no service the whole call fails with `NoSuchService`
carrying that name. -/
theorem C7_get_services_subset_order_and_errors {C : Type} (p : Project C)
    (_hu : (p.services.map Service.name).Nodup) :
    p.get_services none = .ok p.services ∧
    p.get_services (some []) = .ok p.services ∧
    (∀ names, names ≠ [] →
      (∀ nm ∈ names, ∃ s ∈ p.services, s.name = nm) →
      p.get_services (some names) =
        .ok (p.services.filter (fun s => names.contains s.name))) ∧
    (∀ names names2, names.Perm names2 → names ≠ [] →
      (∀ nm ∈ names, ∃ s ∈ p.services, s.name = nm) →
      p.get_services (some names) = p.get_services (some names2)) ∧
    (∀ names, (∃ nm ∈ names, ∀ s ∈ p.services, s.name ≠ nm) →
      ∃ nm ∈ names, (∀ s ∈ p.services, s.name ≠ nm) ∧
        p.get_services (some names) = .error (.noSuchService nm)) := by
  refine ⟨rfl, rfl, fun names hne hall => get_services_filter p names hne hall,
    ?_, ?_⟩
  · intro names names2 hperm hne hall
    have hne2 : names2 ≠ [] := by
      intro h
      subst h
      exact hne hperm.eq_nil
    have hall2 : ∀ nm ∈ names2, ∃ s ∈ p.services, s.name = nm :=
      fun nm h => hall nm (hperm.mem_iff.mpr h)
    rw [get_services_filter p names hne hall, get_services_filter p names2 hne2 hall2]
    congr 1
    apply List.filter_congr
    intro s _
    rw [Bool.eq_iff_iff, List.elem_iff, List.elem_iff]
    exact hperm.mem_iff
  · intro names hex
    obtain ⟨nm, hnm, hnone, herr⟩ := getServiceEach_err p names hex
    have hlen : ¬ names.length = 0 := by
      intro h0
      rw [List.length_eq_zero.mp h0] at hnm
      cases hnm
    refine ⟨nm, hnm, hnone, ?_⟩
    rw [Project.get_services, if_neg hlen, herr]

/-- Witness for C7 on a concrete two-service project. -/
theorem C7_get_services_subset_order_and_errors_witness :
    (⟨"p", [Service.mk 0 "p" [] "a", Service.mk 0 "p" [] "b"], 0⟩ : Project Nat).get_services
        (some ["b"]) = .ok [Service.mk 0 "p" [] "b"] ∧
    (⟨"p", [Service.mk 0 "p" [] "a", Service.mk 0 "p" [] "b"], 0⟩ : Project Nat).get_services
        none = .ok [Service.mk 0 "p" [] "a", Service.mk 0 "p" [] "b"] ∧
    ∃ nm ∈ ["missing"],
      (∀ s ∈ ([Service.mk 0 "p" [] "a", Service.mk 0 "p" [] "b"] : List (Service Nat)),
        s.name ≠ nm) ∧
      (⟨"p", [Service.mk 0 "p" [] "a", Service.mk 0 "p" [] "b"], 0⟩ : Project Nat).get_services
        (some ["missing"]) = .error (.noSuchService nm) := by
  have h := C7_get_services_subset_order_and_errors
    (⟨"p", [Service.mk 0 "p" [] "a", Service.mk 0 "p" [] "b"], 0⟩ : Project Nat)
    (by decide)
  exact ⟨(h.2.2.1 ["b"] (by decide) (by decide)).trans rfl, h.1,
    h.2.2.2.2 ["missing"] (by decide)⟩

/-- Helper: when the build operation succeeds on every buildable service,
the build loop invokes it exactly on the buildable ones, in order. -/
theorem buildLoop_all_ok {C ε : Type} (canB : Service C → Bool)
    (op : Service C → Except ε Unit) :
    ∀ (svcs : List (Service C)),
      (∀ s ∈ svcs, canB s = true → op s = .ok ()) →
      buildLoop canB op svcs = (svcs.filter (fun s => canB s), none) := by
  intro svcs
  induction svcs with
  | nil => intro _; rfl
  | cons s rest ih =>
    intro hok
    have hrest := ih (fun x hx => hok x (List.mem_cons_of_mem s hx))
    by_cases hc : canB s = true
    · rw [buildLoop, if_pos hc, hok s (List.mem_cons_self s rest) hc, hrest]
      simp [List.filter_cons, hc]
    · rw [buildLoop, if_neg hc, hrest]
      simp [List.filter_cons, Bool.of_not_eq_true hc]

/-- C8: over any resolved subset, `Project.build` invokes the per-service
build exactly on the selected services whose `can_be_built()` is true, in
subset order; a selected non-buildable service is skipped without the
build being invoked and without the call failing. -/
theorem C8_build_invokes_only_buildable {C ε : Type} (p : Project C)
    (names : Option (List String)) (canB : Service C → Bool)
    (op : Service C → Except ε Unit) (subset : List (Service C))
    (hsub : p.get_services names = .ok subset)
    (hok : ∀ s ∈ subset, canB s = true → op s = .ok ()) :
    p.build names canB op = .ok (subset.filter (fun s => canB s), none) := by
  rw [Project.build, hsub]
  show Except.ok (buildLoop canB op subset) = _
  rw [buildLoop_all_ok canB op subset hok]

/-- Witness for C8 on a project with one non-buildable and one buildable
service: only the buildable one is built and the call succeeds. -/
theorem C8_build_invokes_only_buildable_witness :
    (⟨"p", [Service.mk 0 "p" [] "a", Service.mk 0 "p" [] "b"], 0⟩ : Project Nat).build
      none (fun s => s.name == "b") (fun _ => (.ok () : Except Nat Unit)) =
      .ok ([Service.mk 0 "p" [] "b"], none) :=
  (C8_build_invokes_only_buildable (⟨"p", [Service.mk 0 "p" [] "a", Service.mk 0 "p" [] "b"], 0⟩ : Project Nat)
    none (fun s => s.name == "b") (fun _ => (.ok () : Except Nat Unit))
    [Service.mk 0 "p" [] "a", Service.mk 0 "p" [] "b"] rfl
    (fun _ _ _ => rfl)).trans rfl

/-- Helper: the shared fan-out loop stops at the first failing service,
returning its error; later services are never invoked. -/
theorem opLoop_fail {C ε : Type} (op : Service C → Except ε Unit)
    (s : Service C) (post : List (Service C)) (e : ε) (hs : op s = .error e) :
    ∀ (pre : List (Service C)), (∀ x ∈ pre, op x = .ok ()) →
      opLoop op (pre ++ s :: post) = (pre ++ [s], some e) := by
  intro pre
  induction pre with
  | nil => intro _; rw [List.nil_append, opLoop, hs]; rfl
  | cons x rest ih =>
    intro hpre
    have hx := hpre x (List.mem_cons_self x rest)
    have hrest := ih (fun y hy => hpre y (List.mem_cons_of_mem x hy))
    rw [List.cons_append, opLoop, hx, hrest]
    rfl

/-- Helper: the build loop stops at the first failing buildable service,
returning its error. -/
theorem buildLoop_fail {C ε : Type} (canB : Service C → Bool)
    (op : Service C → Except ε Unit)
    (s : Service C) (post : List (Service C)) (e : ε)
    (hcans : canB s = true) (hs : op s = .error e) :
    ∀ (pre : List (Service C)),
      (∀ x ∈ pre, canB x = true) → (∀ x ∈ pre, op x = .ok ()) →
      buildLoop canB op (pre ++ s :: post) = (pre ++ [s], some e) := by
  intro pre
  induction pre with
  | nil => intro _ _; rw [List.nil_append, buildLoop, if_pos hcans, hs]; rfl
  | cons x rest ih =>
    intro hcan hpre
    have hx := hpre x (List.mem_cons_self x rest)
    have hcx := hcan x (List.mem_cons_self x rest)
    have hrest := ih (fun y hy => hcan y (List.mem_cons_of_mem x hy))
      (fun y hy => hpre y (List.mem_cons_of_mem x hy))
    rw [List.cons_append, buildLoop, if_pos hcx, hx, hrest]
    rfl

/-- Helper: the recreate loop stops at the first failing service,
returning its error and keeping the accumulations of the earlier ones. -/
theorem recreateLoop_fail {C ε γ : Type}
    (rec : Service C → Except ε (List γ × List γ))
    (s : Service C) (post : List (Service C)) (e : ε) (hs : rec s = .error e) :
    ∀ (pre : List (Service C)), (∀ x ∈ pre, ∃ v, rec x = .ok v) →
      ∃ old new, recreateLoop rec (pre ++ s :: post) = (pre ++ [s], old, new, some e) := by
  intro pre
  induction pre with
  | nil =>
    intro _
    refine ⟨[], [], ?_⟩
    rw [List.nil_append, recreateLoop, hs]
    rfl
  | cons x rest ih =>
    intro hpre
    obtain ⟨⟨xOld, xNew⟩, hx⟩ := hpre x (List.mem_cons_self x rest)
    obtain ⟨old, new, hrest⟩ := ih (fun y hy => hpre y (List.mem_cons_of_mem x hy))
    refine ⟨xOld.map (fun c => (x, c)) ++ old, xNew.map (fun c => (x, c)) ++ new, ?_⟩
    rw [List.cons_append, recreateLoop, hx, hrest]
    rfl

/-- C9: for each bulk lifecycle operation (start, stop, kill,
remove_stopped, build, recreate_containers), when the delegated
per-service operation fails on a service of the resolved subset after
succeeding on the ones before it, the error propagates unchanged, the
invocation trace is exactly the services up to and including the failing
one (none after it is invoked, and the earlier invocations stand). -/
theorem C9_bulk_failure_propagates {C ε γ : Type} (p : Project C)
    (names : Option (List String)) (op : Service C → Except ε Unit)
    (canB : Service C → Bool) (rec : Service C → Except ε (List γ × List γ))
    (pre post : List (Service C)) (s : Service C) (e : ε)
    (hsub : p.get_services names = .ok (pre ++ s :: post))
    (hpre : ∀ x ∈ pre, op x = .ok ())
    (hs : op s = .error e)
    (hcanpre : ∀ x ∈ pre, canB x = true) (hcans : canB s = true)
    (hrecpre : ∀ x ∈ pre, ∃ v, rec x = .ok v)
    (hrecs : rec s = .error e) :
    p.start names op = .ok (pre ++ [s], some e) ∧
    p.stop names op = .ok (pre ++ [s], some e) ∧
    p.kill names op = .ok (pre ++ [s], some e) ∧
    p.remove_stopped names op = .ok (pre ++ [s], some e) ∧
    p.build names canB op = .ok (pre ++ [s], some e) ∧
    ∃ old new, p.recreate_containers names rec =
      .ok (pre ++ [s], old, new, some e) := by
  have hop := opLoop_fail op s post e hs pre hpre
  have hbuild := buildLoop_fail canB op s post e hcans hs pre hcanpre hpre
  obtain ⟨old, new, hrec⟩ := recreateLoop_fail rec s post e hrecs pre hrecpre
  refine ⟨?_, ?_, ?_, ?_, ?_, old, new, ?_⟩
  · rw [Project.start, hsub]
    show Except.ok (opLoop op (pre ++ s :: post)) = _
    rw [hop]
  · rw [Project.stop, hsub]
    show Except.ok (opLoop op (pre ++ s :: post)) = _
    rw [hop]
  · rw [Project.kill, hsub]
    show Except.ok (opLoop op (pre ++ s :: post)) = _
    rw [hop]
  · rw [Project.remove_stopped, hsub]
    show Except.ok (opLoop op (pre ++ s :: post)) = _
    rw [hop]
  · rw [Project.build, hsub]
    show Except.ok (buildLoop canB op (pre ++ s :: post)) = _
    rw [hbuild]
  · rw [Project.recreate_containers, hsub]
    show Except.ok (recreateLoop rec (pre ++ s :: post)) = _
    rw [hrec]

/-- Witness for C9 on a three-service project whose middle service fails
each delegated operation. -/
theorem C9_bulk_failure_propagates_witness :
    (⟨"p", [Service.mk 0 "p" [] "a", Service.mk 0 "p" [] "b",
        Service.mk 0 "p" [] "c"], 0⟩ : Project Nat).start none
      (fun t => if t.name == "b" then .error 7 else (.ok () : Except Nat Unit)) =
      .ok ([Service.mk 0 "p" [] "a", Service.mk 0 "p" [] "b"], some 7) ∧
    (⟨"p", [Service.mk 0 "p" [] "a", Service.mk 0 "p" [] "b",
        Service.mk 0 "p" [] "c"], 0⟩ : Project Nat).stop none
      (fun t => if t.name == "b" then .error 7 else (.ok () : Except Nat Unit)) =
      .ok ([Service.mk 0 "p" [] "a", Service.mk 0 "p" [] "b"], some 7) ∧
    (⟨"p", [Service.mk 0 "p" [] "a", Service.mk 0 "p" [] "b",
        Service.mk 0 "p" [] "c"], 0⟩ : Project Nat).kill none
      (fun t => if t.name == "b" then .error 7 else (.ok () : Except Nat Unit)) =
      .ok ([Service.mk 0 "p" [] "a", Service.mk 0 "p" [] "b"], some 7) ∧
    (⟨"p", [Service.mk 0 "p" [] "a", Service.mk 0 "p" [] "b",
        Service.mk 0 "p" [] "c"], 0⟩ : Project Nat).remove_stopped none
      (fun t => if t.name == "b" then .error 7 else (.ok () : Except Nat Unit)) =
      .ok ([Service.mk 0 "p" [] "a", Service.mk 0 "p" [] "b"], some 7) ∧
    (⟨"p", [Service.mk 0 "p" [] "a", Service.mk 0 "p" [] "b",
        Service.mk 0 "p" [] "c"], 0⟩ : Project Nat).build none (fun _ => true)
      (fun t => if t.name == "b" then .error 7 else (.ok () : Except Nat Unit)) =
      .ok ([Service.mk 0 "p" [] "a", Service.mk 0 "p" [] "b"], some 7) ∧
    ∃ old new, (⟨"p", [Service.mk 0 "p" [] "a", Service.mk 0 "p" [] "b",
        Service.mk 0 "p" [] "c"], 0⟩ : Project Nat).recreate_containers none
      (fun t => if t.name == "b" then .error 7
        else (.ok ([], []) : Except Nat (List Nat × List Nat))) =
      .ok ([Service.mk 0 "p" [] "a", Service.mk 0 "p" [] "b"], old, new, some 7) :=
  C9_bulk_failure_propagates (⟨"p", [Service.mk 0 "p" [] "a", Service.mk 0 "p" [] "b",
      Service.mk 0 "p" [] "c"], 0⟩ : Project Nat) none
    (fun t => if t.name == "b" then .error 7 else (.ok () : Except Nat Unit))
    (fun _ => true)
    (fun t => if t.name == "b" then .error 7
      else (.ok ([], []) : Except Nat (List Nat × List Nat)))
    [Service.mk 0 "p" [] "a"] [Service.mk 0 "p" [] "c"] (Service.mk 0 "p" [] "b") 7
    rfl
    (by intro x hx; rcases List.mem_singleton.mp hx with rfl; rfl)
    rfl
    (fun _ _ => rfl) rfl
    (by intro x hx; rcases List.mem_singleton.mp hx with rfl; exact ⟨([], []), rfl⟩)
    rfl
